import Mathlib

/-!
Shallow embedding of the VeritasChain consensus-and-reward engine.

Sources embedded here:
* scripts/simulation_v1.js — weighted consensus over rational honeypot
  accuracies, max-based confidence, top-3-then-filter committee selection.
* scripts/simulation_v2.js — same weights, ai-weight-based confidence.
* the aggregator listener script (unnamed part_000) — integer accuracy
  scores, threshold-only selection, score-ratio verdict, abort on zero
  total weight.
* contracts/MinerRegistry.sol (identical logic in unnamed part_006) —
  registration, reputation state machine, slashing, eligibility.
* contracts/VeritasCore.sol — request submission, finalization with the
  80/20 fee split and equal per-miner payout, revenue withdrawal.

Addresses are modelled as natural numbers; token amounts as naturals
(Solidity uint256 values never overflow here since all operations are
subtractions guarded by require-checks and small additions); rational
accuracies from the JS scripts as elements of the rationals.  Reverting
operations return Except or Option; a run-wrapper keeping the pre-state
on error models the transactional revert semantics.
-/

/-- A miner report in simulation_v1.js / simulation_v2.js:
address, honeypot accuracy (honeypotScore / HONEYPOT_COUNT, a rational)
and binary vote on the target item (true = AI). -/
structure MinerReport where
  address : Nat
  accuracy : ℚ
  vote : Bool
deriving DecidableEq

/-- Sum of committee accuracies voting AI (simulation_v1.js line 138,
simulation_v2.js line 135). -/
def aiWeight (committee : List MinerReport) : ℚ :=
  ((committee.filter (fun m => m.vote)).map (fun m => m.accuracy)).sum

/-- Sum of committee accuracies voting Real (simulation_v1.js line 139,
simulation_v2.js line 137). -/
def realWeight (committee : List MinerReport) : ℚ :=
  ((committee.filter (fun m => !m.vote)).map (fun m => m.accuracy)).sum

/-- Verdict of simulation_v1.js line 151: isAI = aiWeight > realWeight. -/
def isAI_v1 (committee : List MinerReport) : Bool :=
  decide (aiWeight committee > realWeight committee)

/-- Confidence of simulation_v1.js lines 152-154:
floor of 100 * max(aiWeight, realWeight) / (aiWeight + realWeight),
and 0 when the total weight is not positive. -/
def confidence_v1 (committee : List MinerReport) : ℤ :=
  if aiWeight committee + realWeight committee > 0 then
    ⌊max (aiWeight committee) (realWeight committee) / (aiWeight committee + realWeight committee) * 100⌋
  else 0

/-- Verdict of simulation_v2.js line 143: aiWeight > realWeight. -/
def isAI_v2 (committee : List MinerReport) : Bool :=
  decide (aiWeight committee > realWeight committee)

/-- Confidence of simulation_v2.js line 142:
floor of 100 * aiWeight / (aiWeight + realWeight), with no zero guard. -/
def confidence_v2 (committee : List MinerReport) : ℤ :=
  ⌊aiWeight committee / (aiWeight committee + realWeight committee) * 100⌋

/-- The honeypot pass check of simulation_v1.js (lines 124 and 183):
strictly greater than the 0.6 accuracy threshold. -/
def v1Passes (m : MinerReport) : Bool :=
  decide (m.accuracy > 3/5)

/-- Committee selection of simulation_v1.js lines 122-124: stable sort by
accuracy descending, take the top 3, then keep only reports passing the
strict accuracy filter. -/
def committee_v1 (reports : List MinerReport) : List MinerReport :=
  ((reports.mergeSort (fun a b => decide (b.accuracy ≤ a.accuracy))).take 3).filter v1Passes

/-- A miner report in the aggregator listener script (part_000):
address, integer honeypot accuracy score (0..100 percent scale) and
binary verdict on the target (true = AI, the value 1 in the script). -/
structure P0Report where
  addr : Nat
  score : Nat
  verdict : Bool
deriving DecidableEq

/-- Threshold-only committee of part_000 lines 79-91: a report
participates exactly when its accuracy score reaches the configured
ACCURACY_THRESHOLD of 70. -/
def p0Participants (rs : List P0Report) : List P0Report :=
  rs.filter (fun r => 70 ≤ r.score)

/-- Part_000 weightedVoteSum (line 85): sum of participating scores whose
verdict is AI. -/
def p0AiWeight (rs : List P0Report) : Nat :=
  (((p0Participants rs).filter (fun r => r.verdict)).map (fun r => r.score)).sum

/-- The weight participating reports place on the Real side (part_000
adds nothing to weightedVoteSum for them; their score only enters
totalWeight). -/
def p0RealWeight (rs : List P0Report) : Nat :=
  (((p0Participants rs).filter (fun r => !r.verdict)).map (fun r => r.score)).sum

/-- Part_000 totalWeight (line 87): sum of all participating scores. -/
def p0TotalWeight (rs : List P0Report) : Nat :=
  ((p0Participants rs).map (fun r => r.score)).sum

/-- Part_000 consensus, lines 93-100: abort (return, sending no
transaction) when totalWeight is 0, otherwise finalScore =
floor(weightedVoteSum * 100 / totalWeight) and isAI = finalScore > 50. -/
def p0Aggregate (rs : List P0Report) : Option (Bool × Nat) :=
  if p0TotalWeight rs = 0 then none
  else
    let finalScore := p0AiWeight rs * 100 / p0TotalWeight rs
    some (decide (finalScore > 50), finalScore)

/-- ERC20 transfer as used by VeritasToken (OpenZeppelin): reverts when
the source balance is insufficient, otherwise debits src and credits
dst (a self-transfer leaves every balance unchanged). -/
def erc20Transfer (bal : Nat → Nat) (src dst amt : Nat) : Option (Nat → Nat) :=
  if bal src < amt then none
  else some (fun a =>
    if src = dst then bal a
    else if a = src then bal a - amt
    else if a = dst then bal a + amt
    else bal a)

/-- One miner record of MinerRegistry.sol (struct Miner). -/
structure Miner where
  isRegistered : Bool
  stakedAmount : Nat
  reputationScore : Nat
  totalRequestsProcessed : Nat
  successfulJobs : Nat
  failedJobs : Nat
deriving DecidableEq

/-- State of MinerRegistry.sol together with the VeritasToken ledger it
calls into: the miners mapping (Solidity default record is all zeroes
and false), the configured minimum stake, the registry contract address,
all token balances and the token total supply. -/
structure RegistryState where
  miners : Nat → Miner
  minimumStake : Nat
  registryAddr : Nat
  balances : Nat → Nat
  totalSupply : Nat

/-- Revert reasons of MinerRegistry.sol. -/
inductive RegistryError
  | insufficientStakeAmount
  | alreadyRegistered
  | minerNotFound
  | stakeTooLowToSlash
  | tokenTransferFailed
deriving DecidableEq

/-- MinerRegistry.registerMiner: requires amount at or above the minimum
stake and the sender unregistered, pulls the stake into the registry and
creates the record with neutral reputation 50 and zeroed counters. -/
def registerMiner (st : RegistryState) (sender amount : Nat) : Except RegistryError RegistryState :=
  if amount < st.minimumStake then .error .insufficientStakeAmount
  else if (st.miners sender).isRegistered then .error .alreadyRegistered
  else
    match erc20Transfer st.balances sender st.registryAddr amount with
    | none => .error .tokenTransferFailed
    | some bal =>
      .ok { st with
            miners := fun a => if a = sender then ⟨true, amount, 50, 0, 0, 0⟩ else st.miners a,
            balances := bal }

/-- MinerRegistry.updateMinerPerformance (lines 73-89): requires a
registered miner; always increments totalRequestsProcessed; on pass
increments successfulJobs and adds 1 reputation only while below 100;
on fail increments failedJobs and subtracts 5 reputation, flooring at 0. -/
def updateMinerPerformance (st : RegistryState) (addr : Nat) (passedHoneypot : Bool) : Except RegistryError RegistryState :=
  let m := st.miners addr
  if !m.isRegistered then .error .minerNotFound
  else
    let m1 := { m with totalRequestsProcessed := m.totalRequestsProcessed + 1 }
    let m2 :=
      if passedHoneypot then
        { m1 with successfulJobs := m1.successfulJobs + 1,
                  reputationScore := if m1.reputationScore < 100 then m1.reputationScore + 1 else m1.reputationScore }
      else
        { m1 with failedJobs := m1.failedJobs + 1,
                  reputationScore := if 5 ≤ m1.reputationScore then m1.reputationScore - 5 else 0 }
    .ok { st with miners := fun a => if a = addr then m2 else st.miners a }

/-- MinerRegistry.slashMiner (part_006 lines 132-145, identical in
contracts/MinerRegistry.sol): requires a registered miner with stake at
least the slash amount; reduces the stake, burns the tokens from the
registry balance and the total supply, and clears isRegistered when the
remaining stake falls below the minimum. -/
def slashMiner (st : RegistryState) (addr amount : Nat) : Except RegistryError RegistryState :=
  let m := st.miners addr
  if !m.isRegistered then .error .minerNotFound
  else if m.stakedAmount < amount then .error .stakeTooLowToSlash
  else if st.balances st.registryAddr < amount then .error .tokenTransferFailed
  else
    let newStake := m.stakedAmount - amount
    .ok { st with
          miners := fun a => if a = addr then
              { m with stakedAmount := newStake,
                       isRegistered := if newStake < st.minimumStake then false else m.isRegistered }
            else st.miners a,
          balances := fun a => if a = st.registryAddr then st.balances a - amount else st.balances a,
          totalSupply := st.totalSupply - amount }

/-- MinerRegistry.isMinerEligible (part_006 lines 154-159, identical in
contracts/MinerRegistry.sol): registered, staked at or above the
minimum, and reputation strictly above 20. -/
def isMinerEligible (st : RegistryState) (addr : Nat) : Bool :=
  (st.miners addr).isRegistered
    && decide (st.minimumStake ≤ (st.miners addr).stakedAmount)
    && decide (20 < (st.miners addr).reputationScore)

/-- Transactional run of updateMinerPerformance: a revert leaves the
state unchanged. -/
def runUpdate (st : RegistryState) (addr : Nat) (passedHoneypot : Bool) : RegistryState :=
  match updateMinerPerformance st addr passedHoneypot with
  | .ok st1 => st1
  | .error _ => st

/-- Transactional run of slashMiner: a revert leaves the state
unchanged. -/
def runSlash (st : RegistryState) (addr amount : Nat) : RegistryState :=
  match slashMiner st addr amount with
  | .ok st1 => st1
  | .error _ => st

/-- Transactional run of registerMiner: a revert leaves the state
unchanged. -/
def runRegister (st : RegistryState) (sender amount : Nat) : RegistryState :=
  match registerMiner st sender amount with
  | .ok st1 => st1
  | .error _ => st

/-- A finite sequence of honeypot pass/fail outcomes applied to one
miner through updateMinerPerformance, transaction by transaction. -/
def runOutcomes (st : RegistryState) (addr : Nat) (outcomes : List Bool) : RegistryState :=
  outcomes.foldl (fun s p => runUpdate s addr p) st

/-- One request record of VeritasCore.sol (struct Request). -/
structure Request where
  id : Nat
  requester : Nat
  imageHash : String
  isFinalized : Bool
  isAI : Bool
  aiConfidence : Nat
deriving DecidableEq

/-- State of VeritasCore.sol together with its token ledger: contract,
owner and aggregator addresses, the verification fee, all token
balances, the requests mapping and the next request id. -/
structure CoreState where
  coreAddr : Nat
  owner : Nat
  aggregator : Nat
  verificationFee : Nat
  balances : Nat → Nat
  requests : Nat → Request
  nextRequestId : Nat

/-- Revert reasons of VeritasCore.sol. -/
inductive CoreError
  | paymentFailed
  | onlyAggregator
  | alreadyFinalized
  | transferFailed
  | onlyOwner
deriving DecidableEq

/-- VeritasCore.submitRequest (lines 69-87): pulls the verification fee
from the sender into the contract, creates a fresh Pending request under
nextRequestId and increments the counter. -/
def submitRequest (st : CoreState) (sender : Nat) (imageHash : String) : Except CoreError CoreState :=
  match erc20Transfer st.balances sender st.coreAddr st.verificationFee with
  | none => .error .paymentFailed
  | some bal =>
    let reqId := st.nextRequestId
    .ok { st with
          balances := bal,
          requests := fun i => if i = reqId then ⟨reqId, sender, imageHash, false, false, 0⟩ else st.requests i,
          nextRequestId := reqId + 1 }

/-- The payout loop of VeritasCore.finalizeResult (lines 122-127): walk
the winning-miner list, transfer rewardPerMiner to each miner that is
still eligible, skip the rest; returns the new balances and the list of
executed ledger transfers. -/
def payWinners (bal : Nat → Nat) (core : Nat) (eligible : Nat → Bool) (winners : List Nat) (amt : Nat) : Option ((Nat → Nat) × List (Nat × Nat)) :=
  match winners with
  | [] => some (bal, [])
  | w :: rest =>
    if eligible w then
      match erc20Transfer bal core w amt with
      | none => none
      | some bal1 =>
        match payWinners bal1 core eligible rest amt with
        | none => none
        | some (bal2, log) => some (bal2, (w, amt) :: log)
    else payWinners bal core eligible rest amt

/-- VeritasCore.finalizeResult (lines 100-133): aggregator-only; rejects
an already finalized request; records verdict and confidence; computes
the miner pool as 80 percent of the fee and, for a non-empty winner
list, pays each still-eligible winner the equal integer share.  The
second component is the list of executed ledger transfers. -/
def finalizeResult (st : CoreState) (eligible : Nat → Bool) (caller reqId : Nat) (isAI : Bool) (conf : Nat) (winners : List Nat) : Except CoreError (CoreState × List (Nat × Nat)) :=
  if caller ≠ st.aggregator then .error .onlyAggregator
  else if (st.requests reqId).isFinalized then .error .alreadyFinalized
  else
    let st1 := { st with requests := fun i => if i = reqId then
                   { st.requests reqId with isFinalized := true, isAI := isAI, aiConfidence := conf }
                 else st.requests i }
    let minerPool := st.verificationFee * 80 / 100
    if 0 < winners.length then
      let rewardPerMiner := minerPool / winners.length
      match payWinners st1.balances st.coreAddr eligible winners rewardPerMiner with
      | none => .error .transferFailed
      | some (bal, log) => .ok ({ st1 with balances := bal }, log)
    else .ok (st1, [])

/-- Transactional run of finalizeResult: a revert leaves the state
unchanged and executes no transfers. -/
def runFinalize (st : CoreState) (eligible : Nat → Bool) (caller reqId : Nat) (isAI : Bool) (conf : Nat) (winners : List Nat) : CoreState × List (Nat × Nat) :=
  match finalizeResult st eligible caller reqId isAI conf winners with
  | .ok r => r
  | .error _ => (st, [])

/-- VeritasCore.withdrawRevenue (lines 150-153): owner-only; transfers
the entire token balance of the contract to the owner. -/
def withdrawRevenue (st : CoreState) (caller : Nat) : Except CoreError CoreState :=
  if caller ≠ st.owner then .error .onlyOwner
  else
    match erc20Transfer st.balances st.coreAddr st.owner (st.balances st.coreAddr) with
    | none => .error .transferFailed
    | some bal => .ok { st with balances := bal }

/-- Transactional run of withdrawRevenue. -/
def runWithdraw (st : CoreState) (caller : Nat) : CoreState :=
  match withdrawRevenue st caller with
  | .ok st1 => st1
  | .error _ => st

/-- The part_000 NewRequest handler as one step: aggregate the reports;
on NoConsensus (totalWeight 0) return without any transaction, otherwise
finalize on chain with the participating miners as winners. -/
def p0Step (st : CoreState) (eligible : Nat → Bool) (reqId : Nat) (rs : List P0Report) : CoreState × List (Nat × Nat) :=
  match p0Aggregate rs with
  | none => (st, [])
  | some (isAI, score) =>
    runFinalize st eligible st.aggregator reqId isAI score ((p0Participants rs).map (fun r => r.addr))

/-- A concrete core state used by witnesses: contract address 0 holding
50 tokens, owner 1, aggregator 2, fee 10, user 3 holding 100 tokens,
all requests still pending. -/
def coreSt0 : CoreState where
  coreAddr := 0
  owner := 1
  aggregator := 2
  verificationFee := 10
  balances := fun a => if a = 3 then 100 else if a = 0 then 50 else 0
  requests := fun i => ⟨i, 3, "img", false, false, 0⟩
  nextRequestId := 0

/-- A concrete core state whose request 0 is already finalized. -/
def coreStF : CoreState :=
  { coreSt0 with requests := fun i => ⟨i, 3, "img", true, true, 80⟩ }

/-- A concrete eligibility snapshot: only miner 4 is eligible. -/
def elig4 : Nat → Bool := fun w => decide (w = 4)

/-- Transactional run of submitRequest: a revert leaves the state
unchanged. -/
def runSubmit (st : CoreState) (sender : Nat) (imageHash : String) : CoreState :=
  match submitRequest st sender imageHash with
  | .ok st1 => st1
  | .error _ => st

/-- A concrete registry state used by witnesses: registry contract at
address 0, minimum stake 100, account 1 holding 500 tokens, total
supply 1000, nobody registered yet. -/
def regSt0 : RegistryState where
  miners := fun _ => ⟨false, 0, 0, 0, 0, 0⟩
  minimumStake := 100
  registryAddr := 0
  balances := fun a => if a = 1 then 500 else 0
  totalSupply := 1000

/-- The concrete registry state after account 1 stakes 200: registered,
stake 200, neutral reputation 50. -/
def regSt1 : RegistryState := runRegister regSt0 1 200

/-! ## Helper lemmas -/

theorem aiWeight_nonneg (c : List MinerReport) (h : ∀ m ∈ c, 0 ≤ m.accuracy) :
    0 ≤ aiWeight c := by
  apply List.sum_nonneg
  intro x hx
  simp only [List.mem_map, List.mem_filter] at hx
  obtain ⟨m, ⟨hm, _⟩, rfl⟩ := hx
  exact h m hm

theorem realWeight_nonneg (c : List MinerReport) (h : ∀ m ∈ c, 0 ≤ m.accuracy) :
    0 ≤ realWeight c := by
  apply List.sum_nonneg
  intro x hx
  simp only [List.mem_map, List.mem_filter] at hx
  obtain ⟨m, ⟨hm, _⟩, rfl⟩ := hx
  exact h m hm

theorem sum_split_by_verdict : ∀ l : List P0Report,
    ((l.filter (fun r => r.verdict)).map (fun r => r.score)).sum
      + ((l.filter (fun r => !r.verdict)).map (fun r => r.score)).sum
    = (l.map (fun r => r.score)).sum := by
  intro l
  induction l with
  | nil => simp
  | cons r t ih =>
    cases hv : r.verdict <;> simp [List.filter_cons, hv] <;> omega

theorem p0TotalWeight_eq (rs : List P0Report) :
    p0TotalWeight rs = p0AiWeight rs + p0RealWeight rs :=
  (sum_split_by_verdict (p0Participants rs)).symm

/-! ## Claim theorems -/

/-- Claim C1, counterexample: in the part_000 aggregator a committee of
two passing reports with scores 100 (vote AI) and 98 (vote Real) has
ai weight 100 strictly above real weight 98, yet the script computes
finalScore = floor(10000 / 198) = 50 and verdict finalScore > 50 =
false. So verdict true is not equivalent to ai weight > real weight. -/
theorem verdict_not_weight_comparison_in_p0 :
    p0AiWeight [⟨0, 100, true⟩, ⟨1, 98, false⟩] > p0RealWeight [⟨0, 100, true⟩, ⟨1, 98, false⟩]
    ∧ p0Aggregate [⟨0, 100, true⟩, ⟨1, 98, false⟩] = some (false, 50) := by
  constructor
  · decide
  · decide

/-- Claim C1 (amended): in simulation_v1 and simulation_v2 the verdict
is true exactly when ai weight strictly exceeds real weight, and a tie
resolves to false; in the part_000 aggregator the verdict is
floor(100 * ai_weight / total_weight) > 50, which still resolves ties to
false and implies ai weight > real weight when true, but is not
equivalent to the direct weight comparison. -/
theorem verdict_rule_amended (c : List MinerReport) (rs : List P0Report) (v : Bool) (s : Nat)
    (htot : aiWeight c + realWeight c ≠ 0)
    (hp0 : p0Aggregate rs = some (v, s)) :
    (isAI_v1 c = true ↔ aiWeight c > realWeight c)
    ∧ (aiWeight c = realWeight c → isAI_v1 c = false)
    ∧ (isAI_v2 c = true ↔ aiWeight c > realWeight c)
    ∧ (p0AiWeight rs = p0RealWeight rs → v = false)
    ∧ (v = true → p0AiWeight rs > p0RealWeight rs) := by
  have htw : p0TotalWeight rs ≠ 0 := by
    intro h
    rw [p0Aggregate, if_pos h] at hp0
    exact Option.noConfusion hp0
  rw [p0Aggregate, if_neg htw, Option.some_inj, Prod.mk.injEq] at hp0
  obtain ⟨hv, hs⟩ := hp0
  have htweq := p0TotalWeight_eq rs
  refine ⟨?_, ?_, ?_, ?_, ?_⟩
  · simp [isAI_v1]
  · intro h
    simp [isAI_v1, h]
  · simp [isAI_v2]
  · intro h
    have h2 : p0TotalWeight rs = 2 * p0AiWeight rs := by omega
    have hai : 0 < p0AiWeight rs := by omega
    have hmul : p0AiWeight rs * 100 = 2 * p0AiWeight rs * 50 := by ring
    rw [← hv, h2, hmul, Nat.mul_div_cancel_left 50 (by omega)]
    decide
  · intro h
    rw [h] at hv
    have hgt : p0AiWeight rs * 100 / p0TotalWeight rs > 50 := of_decide_eq_true hv
    have hle : 51 * p0TotalWeight rs ≤ p0AiWeight rs * 100 :=
      (Nat.le_div_iff_mul_le (by omega)).mp hgt
    omega

/-- Claim C1 witness: a tied simulation_v1 committee of two accuracy-1/2
members voting opposite ways resolves to false, and a part_000 committee
with scores 100 (AI) and 70 (Real) aggregates to verdict true with
ai weight 100 above real weight 70. -/
theorem verdict_rule_amended_witness :
    (isAI_v1 [⟨0, 1/2, true⟩, ⟨1, 1/2, false⟩] = true
       ↔ aiWeight [⟨0, 1/2, true⟩, ⟨1, 1/2, false⟩] > realWeight [⟨0, 1/2, true⟩, ⟨1, 1/2, false⟩])
    ∧ (aiWeight [⟨0, 1/2, true⟩, ⟨1, 1/2, false⟩] = realWeight [⟨0, 1/2, true⟩, ⟨1, 1/2, false⟩]
       → isAI_v1 [⟨0, 1/2, true⟩, ⟨1, 1/2, false⟩] = false)
    ∧ (isAI_v2 [⟨0, 1/2, true⟩, ⟨1, 1/2, false⟩] = true
       ↔ aiWeight [⟨0, 1/2, true⟩, ⟨1, 1/2, false⟩] > realWeight [⟨0, 1/2, true⟩, ⟨1, 1/2, false⟩])
    ∧ (p0AiWeight [⟨0, 100, true⟩, ⟨1, 70, false⟩] = p0RealWeight [⟨0, 100, true⟩, ⟨1, 70, false⟩]
       → true = false)
    ∧ (true = true → p0AiWeight [⟨0, 100, true⟩, ⟨1, 70, false⟩] > p0RealWeight [⟨0, 100, true⟩, ⟨1, 70, false⟩]) :=
  verdict_rule_amended [⟨0, 1/2, true⟩, ⟨1, 1/2, false⟩] [⟨0, 100, true⟩, ⟨1, 70, false⟩] true 58
    (by norm_num [aiWeight, realWeight]) (by decide)

/-- Claim C2, counterexample: a committee of one accuracy-1 member
voting Real has nonzero total weight, the max-based formula gives
confidence 100, yet simulation_v2 reports confidence
floor(100 * ai_weight / total) = 0. -/
theorem confidence_v2_not_max_based :
    aiWeight [⟨0, 1, false⟩] + realWeight [⟨0, 1, false⟩] ≠ 0
    ∧ confidence_v2 [⟨0, 1, false⟩] = 0
    ∧ ⌊max (aiWeight [⟨0, 1, false⟩]) (realWeight [⟨0, 1, false⟩])
        / (aiWeight [⟨0, 1, false⟩] + realWeight [⟨0, 1, false⟩]) * 100⌋ = (100 : ℤ) := by
  refine ⟨?_, ?_, ?_⟩
  · norm_num [aiWeight, realWeight]
  · norm_num [confidence_v2, aiWeight, realWeight]
  · norm_num [aiWeight, realWeight]

/-- Claim C2 (amended): for every committee of valid accuracies (each
nonnegative) with nonzero total weight, simulation_v1 reports confidence
floor(100 * max(ai_weight, real_weight) / (ai_weight + real_weight)),
an integer in [0, 100]; simulation_v2 instead reports
floor(100 * ai_weight / (ai_weight + real_weight)), which is also an
integer in [0, 100] but is not the max-based value when the verdict is
Real. -/
theorem confidence_formula_amended (c : List MinerReport)
    (hacc : ∀ m ∈ c, 0 ≤ m.accuracy)
    (htot : aiWeight c + realWeight c ≠ 0) :
    confidence_v1 c
      = ⌊max (aiWeight c) (realWeight c) / (aiWeight c + realWeight c) * 100⌋
    ∧ 0 ≤ confidence_v1 c ∧ confidence_v1 c ≤ 100
    ∧ 0 ≤ confidence_v2 c ∧ confidence_v2 c ≤ 100 := by
  have hai : 0 ≤ aiWeight c := aiWeight_nonneg c hacc
  have hre : 0 ≤ realWeight c := realWeight_nonneg c hacc
  have hpos : 0 < aiWeight c + realWeight c :=
    lt_of_le_of_ne (by linarith) (Ne.symm htot)
  have hv1 : confidence_v1 c
      = ⌊max (aiWeight c) (realWeight c) / (aiWeight c + realWeight c) * 100⌋ := by
    rw [confidence_v1, if_pos hpos]
  have hmaxle : max (aiWeight c) (realWeight c) ≤ aiWeight c + realWeight c :=
    max_le (by linarith) (by linarith)
  have hmax0 : 0 ≤ max (aiWeight c) (realWeight c) := le_max_of_le_left hai
  have hr1 : max (aiWeight c) (realWeight c) / (aiWeight c + realWeight c) * 100 ≤ 100 := by
    have h1 : max (aiWeight c) (realWeight c) / (aiWeight c + realWeight c) ≤ 1 :=
      (div_le_one hpos).mpr hmaxle
    nlinarith
  have hr0 : 0 ≤ max (aiWeight c) (realWeight c) / (aiWeight c + realWeight c) * 100 := by
    have := div_nonneg hmax0 (le_of_lt hpos)
    nlinarith
  have hs1 : aiWeight c / (aiWeight c + realWeight c) * 100 ≤ 100 := by
    have h1 : aiWeight c / (aiWeight c + realWeight c) ≤ 1 :=
      (div_le_one hpos).mpr (by linarith)
    nlinarith
  have hs0 : 0 ≤ aiWeight c / (aiWeight c + realWeight c) * 100 := by
    have := div_nonneg hai (le_of_lt hpos)
    nlinarith
  refine ⟨hv1, ?_, ?_, ?_, ?_⟩
  · rw [hv1]
    exact Int.le_floor.mpr (by exact_mod_cast hr0)
  · rw [hv1]
    have : ⌊max (aiWeight c) (realWeight c) / (aiWeight c + realWeight c) * 100⌋ < 101 :=
      Int.floor_lt.mpr (by push_cast; linarith)
    omega
  · exact Int.le_floor.mpr (by exact_mod_cast hs0)
  · have : confidence_v2 c < 101 := Int.floor_lt.mpr (by push_cast; linarith)
    omega

/-- Claim C2 witness: the single-member committee with accuracy 1 voting
AI has valid accuracies and nonzero total weight, so the amended
confidence statement applies to it. -/
theorem confidence_formula_amended_witness :
    confidence_v1 [⟨0, 1, true⟩]
      = ⌊max (aiWeight [⟨0, 1, true⟩]) (realWeight [⟨0, 1, true⟩])
          / (aiWeight [⟨0, 1, true⟩] + realWeight [⟨0, 1, true⟩]) * 100⌋
    ∧ 0 ≤ confidence_v1 [⟨0, 1, true⟩] ∧ confidence_v1 [⟨0, 1, true⟩] ≤ 100
    ∧ 0 ≤ confidence_v2 [⟨0, 1, true⟩] ∧ confidence_v2 [⟨0, 1, true⟩] ≤ 100 :=
  confidence_formula_amended [⟨0, 1, true⟩]
    (by simp) (by norm_num [aiWeight, realWeight])

/-- Claim C8, counterexample: a report whose accuracy is exactly the
simulation_v1 pass threshold 0.6 = 3/5 does not pass the honeypot
filter of that script and is dropped from its committee, because the filter
is strict. -/
theorem v1_filter_strict_at_boundary :
    (⟨0, 3/5, true⟩ : MinerReport).accuracy = 3/5
    ∧ v1Passes ⟨0, 3/5, true⟩ = false
    ∧ committee_v1 [⟨0, 3/5, true⟩] = [] := by
  refine ⟨rfl, ?_, ?_⟩
  · simp [v1Passes]
  · simp [committee_v1, v1Passes]

/-- Claim C8 (amended): the part_000 threshold-only selection keeps a
report exactly when its accuracy score reaches the threshold 70,
boundary inclusive; the honeypot filter of simulation_v1 is strict, passing a
report exactly when its accuracy strictly exceeds 3/5, so its committee
only contains reports strictly above the threshold. -/
theorem threshold_filter_amended (rs : List P0Report) (r : P0Report)
    (c : List MinerReport) (m : MinerReport) :
    (r ∈ p0Participants rs ↔ r ∈ rs ∧ 70 ≤ r.score)
    ∧ (v1Passes m = true ↔ m.accuracy > 3/5)
    ∧ (m ∈ committee_v1 c → m.accuracy > 3/5) := by
  refine ⟨?_, ?_, ?_⟩
  · simp [p0Participants, List.mem_filter]
  · simp [v1Passes]
  · intro hm
    have := (List.mem_filter.mp hm).2
    simpa [v1Passes] using this

/-- Claim C8 witness: the amended threshold statement applied to a
boundary part_000 report of score 70 and a simulation_v1 report of
accuracy 7/10. -/
theorem threshold_filter_amended_witness :
    ((⟨0, 70, true⟩ : P0Report) ∈ p0Participants [⟨0, 70, true⟩]
       ↔ (⟨0, 70, true⟩ : P0Report) ∈ [(⟨0, 70, true⟩ : P0Report)] ∧ 70 ≤ (⟨0, 70, true⟩ : P0Report).score)
    ∧ (v1Passes ⟨1, 7/10, true⟩ = true ↔ (⟨1, 7/10, true⟩ : MinerReport).accuracy > 3/5)
    ∧ ((⟨1, 7/10, true⟩ : MinerReport) ∈ committee_v1 [⟨1, 7/10, true⟩]
       → (⟨1, 7/10, true⟩ : MinerReport).accuracy > 3/5) :=
  threshold_filter_amended [⟨0, 70, true⟩] ⟨0, 70, true⟩ [⟨1, 7/10, true⟩] ⟨1, 7/10, true⟩

/-- Claim C3 (confirmed): when the part_000 committee is empty or its
total weight is zero, aggregation returns no verdict (the NoConsensus
abort), the handler performs no transaction and no transfers, and a
Pending request stays Pending with no verdict or confidence recorded. -/
theorem no_consensus_aborts (st : CoreState) (eligible : Nat → Bool) (reqId : Nat)
    (rs : List P0Report)
    (h : p0Participants rs = [] ∨ p0TotalWeight rs = 0) :
    p0Aggregate rs = none
    ∧ p0Step st eligible reqId rs = (st, [])
    ∧ ((st.requests reqId).isFinalized = false →
        ((p0Step st eligible reqId rs).1.requests reqId).isFinalized = false
        ∧ (p0Step st eligible reqId rs).1.requests reqId = st.requests reqId) := by
  have htw : p0TotalWeight rs = 0 := by
    rcases h with h | h
    · rw [p0TotalWeight, h]
      rfl
    · exact h
  have hag : p0Aggregate rs = none := by
    rw [p0Aggregate, if_pos htw]
  refine ⟨hag, ?_, ?_⟩
  · rw [p0Step, hag]
  · intro hf
    rw [p0Step, hag]
    exact ⟨hf, rfl⟩

/-- Claim C3 witness: a single report of score 30 is rejected by the
threshold, the committee is empty, and the handler leaves the concrete
pending state untouched. -/
theorem no_consensus_aborts_witness :
    p0Aggregate [⟨5, 30, true⟩] = none
    ∧ p0Step coreSt0 elig4 0 [⟨5, 30, true⟩] = (coreSt0, [])
    ∧ ((coreSt0.requests 0).isFinalized = false →
        ((p0Step coreSt0 elig4 0 [⟨5, 30, true⟩]).1.requests 0).isFinalized = false
        ∧ (p0Step coreSt0 elig4 0 [⟨5, 30, true⟩]).1.requests 0 = coreSt0.requests 0) :=
  no_consensus_aborts coreSt0 elig4 0 [⟨5, 30, true⟩] (Or.inl (by decide))

/-- Claim C9 (confirmed): a finalize call on an already finalized
request reverts with AlreadyFinalized; the transactional run leaves the
whole state (in particular the stored verdict, confidence and finalized
flag) unchanged and executes no ledger transfers. -/
theorem refinalize_rejected (st : CoreState) (eligible : Nat → Bool) (reqId : Nat)
    (isAI : Bool) (conf : Nat) (winners : List Nat)
    (hfin : (st.requests reqId).isFinalized = true) :
    finalizeResult st eligible st.aggregator reqId isAI conf winners = .error .alreadyFinalized
    ∧ runFinalize st eligible st.aggregator reqId isAI conf winners = (st, [])
    ∧ (runFinalize st eligible st.aggregator reqId isAI conf winners).1.requests reqId
        = st.requests reqId := by
  have h1 : finalizeResult st eligible st.aggregator reqId isAI conf winners
      = .error .alreadyFinalized := by
    rw [finalizeResult, if_neg (by simp), if_pos hfin]
  refine ⟨h1, ?_, ?_⟩
  · rw [runFinalize, h1]
  · rw [runFinalize, h1]

/-- Claim C9 witness: re-finalizing the already finalized request 0 of
the concrete state fails with AlreadyFinalized and changes nothing. -/
theorem refinalize_rejected_witness :
    finalizeResult coreStF elig4 coreStF.aggregator 0 false 10 [4] = .error .alreadyFinalized
    ∧ runFinalize coreStF elig4 coreStF.aggregator 0 false 10 [4] = (coreStF, [])
    ∧ (runFinalize coreStF elig4 coreStF.aggregator 0 false 10 [4]).1.requests 0
        = coreStF.requests 0 :=
  refinalize_rejected coreStF elig4 0 false 10 [4] (by rfl)

/-- WithdrawRevenue moves the entire contract balance to the owner
whenever the owner is a distinct account: the call succeeds, the
contract is left with zero balance and the owner gains exactly the
previous contract balance. -/
theorem withdraw_spec (st : CoreState) (hoc : st.owner ≠ st.coreAddr) :
    withdrawRevenue st st.owner = .ok (runWithdraw st st.owner)
    ∧ (runWithdraw st st.owner).balances st.coreAddr = 0
    ∧ (runWithdraw st st.owner).balances st.owner
        = st.balances st.owner + st.balances st.coreAddr := by
  have htr : erc20Transfer st.balances st.coreAddr st.owner (st.balances st.coreAddr)
      = some (fun a =>
          if st.coreAddr = st.owner then st.balances a
          else if a = st.coreAddr then st.balances a - st.balances st.coreAddr
          else if a = st.owner then st.balances a + st.balances st.coreAddr
          else st.balances a) := by
    rw [erc20Transfer, if_neg (lt_irrefl _)]
  have hw : withdrawRevenue st st.owner = .ok
      { st with balances := fun a =>
          if st.coreAddr = st.owner then st.balances a
          else if a = st.coreAddr then st.balances a - st.balances st.coreAddr
          else if a = st.owner then st.balances a + st.balances st.coreAddr
          else st.balances a } := by
    rw [withdrawRevenue, if_neg (by simp), htr]
  have hrw : runWithdraw st st.owner
      = { st with balances := fun a =>
          if st.coreAddr = st.owner then st.balances a
          else if a = st.coreAddr then st.balances a - st.balances st.coreAddr
          else if a = st.owner then st.balances a + st.balances st.coreAddr
          else st.balances a } := by
    rw [runWithdraw, hw]
  refine ⟨by rw [hw, hrw], ?_, ?_⟩
  · rw [hrw]
    simp [Ne.symm hoc]
  · rw [hrw]
    simp [Ne.symm hoc, hoc]

/-- Claim C10 (confirmed): withdrawRevenue transfers the entire token
balance of the core contract to the owner, zeroing the contract. In
particular, right after a submitRequest whose request is still Pending,
the contract balance contains the full fee of that pending request, so
the drained amount includes the 80 percent miner pool portion
(fee * 80 / 100 is at most the contract balance), not only the
20 percent revenue share. -/
theorem withdraw_drains_pending_pool (st : CoreState) (sender : Nat) (imageHash : String)
    (st1 : CoreState)
    (hoc : st.owner ≠ st.coreAddr)
    (hso : sender ≠ st.coreAddr)
    (hsub : submitRequest st sender imageHash = .ok st1) :
    withdrawRevenue st st.owner = .ok (runWithdraw st st.owner)
    ∧ (runWithdraw st st.owner).balances st.coreAddr = 0
    ∧ (runWithdraw st st.owner).balances st.owner
        = st.balances st.owner + st.balances st.coreAddr
    ∧ (st1.requests st.nextRequestId).isFinalized = false
    ∧ st1.balances st.coreAddr = st.balances st.coreAddr + st.verificationFee
    ∧ st.verificationFee * 80 / 100 ≤ st1.balances st.coreAddr
    ∧ (runWithdraw st1 st1.owner).balances st1.coreAddr = 0
    ∧ (runWithdraw st1 st1.owner).balances st1.owner
        = st1.balances st1.owner + st1.balances st1.coreAddr := by
  obtain ⟨hw, hz, hg⟩ := withdraw_spec st hoc
  rw [submitRequest] at hsub
  cases htr : erc20Transfer st.balances sender st.coreAddr st.verificationFee with
  | none =>
    rw [htr] at hsub
    exact absurd hsub (by simp)
  | some bal =>
    rw [htr] at hsub
    simp only [Except.ok.injEq] at hsub
    have hfee : ¬ (st.balances sender < st.verificationFee) := by
      intro hlt
      rw [erc20Transfer, if_pos hlt] at htr
      exact Option.noConfusion htr
    have hbal : bal = fun a =>
        if sender = st.coreAddr then st.balances a
        else if a = sender then st.balances a - st.verificationFee
        else if a = st.coreAddr then st.balances a + st.verificationFee
        else st.balances a := by
      rw [erc20Transfer, if_neg hfee] at htr
      exact (Option.some_inj.mp htr).symm
    have hbalcore : bal st.coreAddr = st.balances st.coreAddr + st.verificationFee := by
      rw [hbal]
      simp [hso, Ne.symm hso]
    have h80 : st.verificationFee * 80 / 100 ≤ st.verificationFee := by
      have h1 : st.verificationFee * 80 / 100 ≤ st.verificationFee * 100 / 100 :=
        Nat.div_le_div_right (Nat.mul_le_mul (le_refl _) (by norm_num))
      rwa [Nat.mul_div_cancel _ (by norm_num)] at h1
    have hOwner : st1.owner = st.owner := by rw [← hsub]
    have hCore : st1.coreAddr = st.coreAddr := by rw [← hsub]
    have hBal : st1.balances st.coreAddr = bal st.coreAddr := by rw [← hsub]
    have hReq : (st1.requests st.nextRequestId).isFinalized = false := by
      rw [← hsub]
      simp
    have hoc1 : st1.owner ≠ st1.coreAddr := by
      rw [hOwner, hCore]
      exact hoc
    obtain ⟨_, hz1, hg1⟩ := withdraw_spec st1 hoc1
    refine ⟨hw, hz, hg, hReq, by rw [hBal, hbalcore], ?_, hz1, hg1⟩
    rw [hBal, hbalcore]
    omega

/-- Claim C10 witness: submitting a request from user 3 on the concrete
state and then withdrawing leaves the contract at balance zero with the
owner holding everything, including the pool of the pending request. -/
theorem withdraw_drains_pending_pool_witness :
    withdrawRevenue coreSt0 coreSt0.owner = .ok (runWithdraw coreSt0 coreSt0.owner)
    ∧ (runWithdraw coreSt0 coreSt0.owner).balances coreSt0.coreAddr = 0
    ∧ (runWithdraw coreSt0 coreSt0.owner).balances coreSt0.owner
        = coreSt0.balances coreSt0.owner + coreSt0.balances coreSt0.coreAddr
    ∧ ((runSubmit coreSt0 3 "img").requests coreSt0.nextRequestId).isFinalized = false
    ∧ (runSubmit coreSt0 3 "img").balances coreSt0.coreAddr
        = coreSt0.balances coreSt0.coreAddr + coreSt0.verificationFee
    ∧ coreSt0.verificationFee * 80 / 100 ≤ (runSubmit coreSt0 3 "img").balances coreSt0.coreAddr
    ∧ (runWithdraw (runSubmit coreSt0 3 "img") (runSubmit coreSt0 3 "img").owner).balances
        (runSubmit coreSt0 3 "img").coreAddr = 0
    ∧ (runWithdraw (runSubmit coreSt0 3 "img") (runSubmit coreSt0 3 "img").owner).balances
        (runSubmit coreSt0 3 "img").owner
        = (runSubmit coreSt0 3 "img").balances (runSubmit coreSt0 3 "img").owner
          + (runSubmit coreSt0 3 "img").balances (runSubmit coreSt0 3 "img").coreAddr :=
  withdraw_drains_pending_pool coreSt0 3 "img" (runSubmit coreSt0 3 "img")
    (by decide) (by decide) (by rfl)

/-- The payout loop executes exactly the transfers (w, amt) for the
still-eligible winners, in list order, skipping ineligible entries. -/
theorem payWinners_log (core : Nat) (eligible : Nat → Bool) (amt : Nat) :
    ∀ (winners : List Nat) (bal bal2 : Nat → Nat) (log : List (Nat × Nat)),
      payWinners bal core eligible winners amt = some (bal2, log) →
      log = winners.filterMap (fun w => if eligible w then some (w, amt) else none) := by
  intro winners
  induction winners with
  | nil =>
    intro bal bal2 log h
    rw [payWinners] at h
    simp only [Option.some_inj, Prod.mk.injEq] at h
    simp [← h.2]
  | cons w rest ih =>
    intro bal bal2 log h
    rw [payWinners] at h
    by_cases he : eligible w = true
    · rw [if_pos he] at h
      split at h
      · exact absurd h (by simp)
      · rename_i bal1 htr
        split at h
        · exact absurd h (by simp)
        · rename_i balr logr hrec
          simp only [Option.some_inj, Prod.mk.injEq] at h
          rw [← h.2, List.filterMap_cons, if_pos he]
          exact congrArg (List.cons (w, amt)) (ih bal1 balr logr hrec)
    · rw [if_neg he] at h
      rw [List.filterMap_cons]
      simp only [he, if_false]
      exact ih bal bal2 log h

/-- The amounts of the executed payout transfers add up to the number of
eligible winners times the per-miner amount. -/
theorem pay_log_sum (eligible : Nat → Bool) (amt : Nat) :
    ∀ winners : List Nat,
      ((winners.filterMap (fun w => if eligible w then some (w, amt) else none)).map
          Prod.snd).sum
        = (winners.filter eligible).length * amt := by
  intro winners
  induction winners with
  | nil => simp
  | cons w rest ih =>
    by_cases he : eligible w = true <;>
      simp [List.filterMap_cons, List.filter_cons, he, ih, Nat.succ_mul] <;>
      omega

/-- Claim C4 (confirmed): a successful finalize with a non-empty winner
list pays from the pool fee * 80 / 100; its transfer log sends exactly
pool / n to every listed winner that is still eligible at payout time,
contains no transfer for an ineligible listed winner (the share is
simply not paid out, staying with the protocol), and the total amount
transferred never exceeds the pool. -/
theorem equal_split_payouts (st : CoreState) (eligible : Nat → Bool) (caller reqId : Nat)
    (isAI : Bool) (conf : Nat) (winners : List Nat) (st1 : CoreState) (log : List (Nat × Nat))
    (hne : winners ≠ [])
    (hfin : finalizeResult st eligible caller reqId isAI conf winners = .ok (st1, log)) :
    log = winners.filterMap (fun w =>
        if eligible w then some (w, st.verificationFee * 80 / 100 / winners.length) else none)
    ∧ (∀ w ∈ winners, eligible w = true →
        (w, st.verificationFee * 80 / 100 / winners.length) ∈ log)
    ∧ (∀ w, eligible w = false → ∀ a, (w, a) ∉ log)
    ∧ (log.map Prod.snd).sum ≤ st.verificationFee * 80 / 100 := by
  rw [finalizeResult] at hfin
  split at hfin
  · exact absurd hfin (by simp)
  split at hfin
  · exact absurd hfin (by simp)
  dsimp only at hfin
  split at hfin
  case isTrue hlen =>
    split at hfin
    case h_1 => exact absurd hfin (by simp)
    case h_2 =>
      rename_i balv logv heq
      simp only [Except.ok.injEq, Prod.mk.injEq] at hfin
      have hlog : log = winners.filterMap (fun w =>
          if eligible w then some (w, st.verificationFee * 80 / 100 / winners.length) else none) := by
        rw [← hfin.2]
        exact payWinners_log st.coreAddr eligible _ winners _ balv logv heq
      refine ⟨hlog, ?_, ?_, ?_⟩
      · intro w hw he
        rw [hlog]
        exact List.mem_filterMap.mpr ⟨w, hw, by simp [he]⟩
      · intro w he a hmem
        rw [hlog] at hmem
        obtain ⟨x, _, hfx⟩ := List.mem_filterMap.mp hmem
        by_cases hex : eligible x = true
        · rw [if_pos hex, Option.some_inj, Prod.mk.injEq] at hfx
          rw [hfx.1] at hex
          rw [hex] at he
          exact Bool.noConfusion he
        · rw [if_neg hex] at hfx
          exact Option.noConfusion hfx
      · rw [hlog, pay_log_sum]
        calc (winners.filter eligible).length * (st.verificationFee * 80 / 100 / winners.length)
            ≤ winners.length * (st.verificationFee * 80 / 100 / winners.length) :=
              Nat.mul_le_mul_right _ (List.length_filter_le eligible winners)
          _ = st.verificationFee * 80 / 100 / winners.length * winners.length := Nat.mul_comm _ _
          _ ≤ st.verificationFee * 80 / 100 := Nat.div_mul_le_self _ _
  case isFalse hlen =>
    have : winners.length = 0 := by omega
    exact absurd (List.length_eq_zero.mp this) hne

/-- Claim C4 witness: finalizing request 0 of the concrete state with
winners 4 and 5, of which only 4 is still eligible, pays 4 = (10*80/100)/2
to miner 4 only, and the log totals at most the pool of 8. -/
theorem equal_split_payouts_witness :
    ([(4, 4)] : List (Nat × Nat)) = [4, 5].filterMap (fun w =>
        if elig4 w then some (w, coreSt0.verificationFee * 80 / 100 / [4, 5].length) else none)
    ∧ (∀ w ∈ [4, 5], elig4 w = true →
        (w, coreSt0.verificationFee * 80 / 100 / [4, 5].length) ∈ ([(4, 4)] : List (Nat × Nat)))
    ∧ (∀ w, elig4 w = false → ∀ a, (w, a) ∉ ([(4, 4)] : List (Nat × Nat)))
    ∧ (([(4, 4)] : List (Nat × Nat)).map Prod.snd).sum ≤ coreSt0.verificationFee * 80 / 100 :=
  equal_split_payouts coreSt0 elig4 2 0 true 95 [4, 5]
    (runFinalize coreSt0 elig4 2 0 true 95 [4, 5]).1 [(4, 4)]
    (by decide) (by rfl)

/-- Claim C5 (confirmed): slashMiner rejects an unregistered worker with
the miner-not-found revert (the NotRegistered failure) and rejects a
slash amount above the stake with the stake-too-low revert, both without
state change; on success it reduces the stake by the amount, burns the
tokens (total supply drops by the amount and no account balance
increases), and if the remaining stake is below the minimum it clears
the registration flag, making isMinerEligible false. -/
theorem slash_spec (st : RegistryState) (addr amount : Nat) :
    ((st.miners addr).isRegistered = false →
      slashMiner st addr amount = .error .minerNotFound ∧ runSlash st addr amount = st)
    ∧ ((st.miners addr).isRegistered = true → (st.miners addr).stakedAmount < amount →
      slashMiner st addr amount = .error .stakeTooLowToSlash ∧ runSlash st addr amount = st)
    ∧ ((st.miners addr).isRegistered = true → amount ≤ (st.miners addr).stakedAmount →
       amount ≤ st.balances st.registryAddr →
      slashMiner st addr amount = .ok (runSlash st addr amount)
      ∧ ((runSlash st addr amount).miners addr).stakedAmount
          = (st.miners addr).stakedAmount - amount
      ∧ (runSlash st addr amount).totalSupply = st.totalSupply - amount
      ∧ (∀ a, (runSlash st addr amount).balances a ≤ st.balances a)
      ∧ ((st.miners addr).stakedAmount - amount < st.minimumStake →
          ((runSlash st addr amount).miners addr).isRegistered = false
          ∧ isMinerEligible (runSlash st addr amount) addr = false)) := by
  refine ⟨?_, ?_, ?_⟩
  · intro hr
    have h : slashMiner st addr amount = .error .minerNotFound := by
      rw [slashMiner]
      simp [hr]
    exact ⟨h, by rw [runSlash, h]⟩
  · intro hr hlt
    have h : slashMiner st addr amount = .error .stakeTooLowToSlash := by
      rw [slashMiner]
      simp [hr, hlt]
    exact ⟨h, by rw [runSlash, h]⟩
  · intro hr hle hbal
    have h : slashMiner st addr amount = .ok
        { st with
          miners := fun a => if a = addr then
              { st.miners addr with
                stakedAmount := (st.miners addr).stakedAmount - amount,
                isRegistered := if (st.miners addr).stakedAmount - amount < st.minimumStake
                  then false else (st.miners addr).isRegistered }
            else st.miners a,
          balances := fun a => if a = st.registryAddr then st.balances a - amount
            else st.balances a,
          totalSupply := st.totalSupply - amount } := by
      rw [slashMiner]
      simp [hr, Nat.not_lt.mpr hle, Nat.not_lt.mpr hbal]
    have hrs : runSlash st addr amount
        = { st with
            miners := fun a => if a = addr then
                { st.miners addr with
                  stakedAmount := (st.miners addr).stakedAmount - amount,
                  isRegistered := if (st.miners addr).stakedAmount - amount < st.minimumStake
                    then false else (st.miners addr).isRegistered }
              else st.miners a,
            balances := fun a => if a = st.registryAddr then st.balances a - amount
              else st.balances a,
            totalSupply := st.totalSupply - amount } := by
      rw [runSlash, h]
    refine ⟨by rw [h, hrs], by rw [hrs]; simp, by rw [hrs], ?_, ?_⟩
    · intro a
      rw [hrs]
      by_cases ha : a = st.registryAddr <;> simp [ha] <;> omega
    · intro hbelow
      constructor
      · rw [hrs]
        simp [hbelow]
      · rw [isMinerEligible, hrs]
        simp [hbelow]

/-- Claim C5 witness: in the concrete state where account 1 registered
a stake of 200 against a minimum of 100, slashing 150 succeeds, leaves
stake 50, burns 150 from the supply, credits nobody, clears the
registration flag and makes the miner ineligible. -/
theorem slash_spec_witness :
    slashMiner regSt1 1 150 = .ok (runSlash regSt1 1 150)
    ∧ ((runSlash regSt1 1 150).miners 1).stakedAmount
        = (regSt1.miners 1).stakedAmount - 150
    ∧ (runSlash regSt1 1 150).totalSupply = regSt1.totalSupply - 150
    ∧ (runSlash regSt1 1 150).balances 0 ≤ regSt1.balances 0
    ∧ ((runSlash regSt1 1 150).miners 1).isRegistered = false
    ∧ isMinerEligible (runSlash regSt1 1 150) 1 = false := by
  have hmain := (slash_spec regSt1 1 150).2.2 (by decide) (by decide) (by decide)
  have hkick := hmain.2.2.2.2 (by decide)
  exact ⟨hmain.1, hmain.2.1, hmain.2.2.1, hmain.2.2.2.1 0, hkick.1, hkick.2⟩

/-- Claim C6 (confirmed): for a registered worker one
updateMinerPerformance transition always increments
totalRequestsProcessed; on pass it increments successfulJobs and moves
the reputation to min(100, score + 1) (for any score in the documented
0..100 range); on fail it increments failedJobs and moves the
reputation to max(0, score - 5); for an unregistered identity it fails
with the miner-not-found revert (the UnknownWorker failure) and changes
nothing. -/
theorem record_outcome_spec (st : RegistryState) (addr : Nat) (passed : Bool) :
    ((st.miners addr).isRegistered = false →
      updateMinerPerformance st addr passed = .error .minerNotFound
      ∧ runUpdate st addr passed = st)
    ∧ ((st.miners addr).isRegistered = true →
      updateMinerPerformance st addr passed = .ok (runUpdate st addr passed)
      ∧ ((runUpdate st addr passed).miners addr).totalRequestsProcessed
          = (st.miners addr).totalRequestsProcessed + 1
      ∧ (passed = true →
          ((runUpdate st addr passed).miners addr).successfulJobs
            = (st.miners addr).successfulJobs + 1
          ∧ ((runUpdate st addr passed).miners addr).failedJobs = (st.miners addr).failedJobs
          ∧ ((st.miners addr).reputationScore ≤ 100 →
              ((runUpdate st addr passed).miners addr).reputationScore
                = min 100 ((st.miners addr).reputationScore + 1)))
      ∧ (passed = false →
          ((runUpdate st addr passed).miners addr).failedJobs
            = (st.miners addr).failedJobs + 1
          ∧ ((runUpdate st addr passed).miners addr).successfulJobs
            = (st.miners addr).successfulJobs
          ∧ (((runUpdate st addr passed).miners addr).reputationScore : ℤ)
            = max 0 (((st.miners addr).reputationScore : ℤ) - 5))) := by
  constructor
  · intro hr
    have h : updateMinerPerformance st addr passed = .error .minerNotFound := by
      rw [updateMinerPerformance]
      simp [hr]
    exact ⟨h, by rw [runUpdate, h]⟩
  · intro hr
    have h : updateMinerPerformance st addr passed = .ok
        { st with miners := fun a => if a = addr then
            (if passed then
              { st.miners addr with
                totalRequestsProcessed := (st.miners addr).totalRequestsProcessed + 1,
                successfulJobs := (st.miners addr).successfulJobs + 1,
                reputationScore := if (st.miners addr).reputationScore < 100
                  then (st.miners addr).reputationScore + 1
                  else (st.miners addr).reputationScore }
            else
              { st.miners addr with
                totalRequestsProcessed := (st.miners addr).totalRequestsProcessed + 1,
                failedJobs := (st.miners addr).failedJobs + 1,
                reputationScore := if 5 ≤ (st.miners addr).reputationScore
                  then (st.miners addr).reputationScore - 5
                  else 0 })
          else st.miners a } := by
      rw [updateMinerPerformance]
      cases passed <;> simp [hr]
    have hru : runUpdate st addr passed
        = { st with miners := fun a => if a = addr then
            (if passed then
              { st.miners addr with
                totalRequestsProcessed := (st.miners addr).totalRequestsProcessed + 1,
                successfulJobs := (st.miners addr).successfulJobs + 1,
                reputationScore := if (st.miners addr).reputationScore < 100
                  then (st.miners addr).reputationScore + 1
                  else (st.miners addr).reputationScore }
            else
              { st.miners addr with
                totalRequestsProcessed := (st.miners addr).totalRequestsProcessed + 1,
                failedJobs := (st.miners addr).failedJobs + 1,
                reputationScore := if 5 ≤ (st.miners addr).reputationScore
                  then (st.miners addr).reputationScore - 5
                  else 0 })
          else st.miners a } := by
      rw [runUpdate, h]
    refine ⟨by rw [h, hru], ?_, ?_, ?_⟩
    · rw [hru]
      cases passed <;> simp
    · intro hp
      subst hp
      rw [hru]
      refine ⟨by simp, by simp, ?_⟩
      intro h100
      simp only [if_true, if_pos rfl]
      by_cases hlt : (st.miners addr).reputationScore < 100 <;> simp [hlt] <;> omega
    · intro hp
      subst hp
      rw [hru]
      refine ⟨by simp, by simp, ?_⟩
      simp only [if_pos rfl, Bool.false_eq_true, if_false]
      by_cases hge : 5 ≤ (st.miners addr).reputationScore <;> simp [hge] <;> omega

/-- Claim C6 witness: a pass outcome for the registered concrete miner 1
succeeds, bumping totalRequestsProcessed and successfulJobs and moving
the reputation from 50 to min(100, 51). -/
theorem record_outcome_spec_witness :
    updateMinerPerformance regSt1 1 true = .ok (runUpdate regSt1 1 true)
    ∧ ((runUpdate regSt1 1 true).miners 1).totalRequestsProcessed
        = (regSt1.miners 1).totalRequestsProcessed + 1
    ∧ ((runUpdate regSt1 1 true).miners 1).successfulJobs
        = (regSt1.miners 1).successfulJobs + 1
    ∧ ((runUpdate regSt1 1 true).miners 1).failedJobs = (regSt1.miners 1).failedJobs
    ∧ ((runUpdate regSt1 1 true).miners 1).reputationScore
        = min 100 ((regSt1.miners 1).reputationScore + 1) := by
  have hmain := (record_outcome_spec regSt1 1 true).2 (by decide)
  have hpass := hmain.2.2.1 rfl
  exact ⟨hmain.1, hmain.2.1, hpass.1, hpass.2.1, hpass.2.2 (by decide)⟩

/-- One transactional reputation update preserves the 0..100 range of
the reputation score of any miner record. -/
theorem runUpdate_rep_le (st : RegistryState) (upd addr : Nat) (p : Bool)
    (h : (st.miners addr).reputationScore ≤ 100) :
    ((runUpdate st upd p).miners addr).reputationScore ≤ 100 := by
  rw [runUpdate]
  cases hres : updateMinerPerformance st upd p with
  | error e => exact h
  | ok st2 =>
    rw [updateMinerPerformance] at hres
    dsimp only at hres
    by_cases hr : (st.miners upd).isRegistered = true
    · simp only [hr, Bool.not_true, Bool.false_eq_true, if_false, Except.ok.injEq] at hres
      rw [← hres]
      by_cases ha : addr = upd
      · subst ha
        simp only [if_pos rfl]
        cases p <;> simp only [Bool.false_eq_true, if_false, if_true] <;> split <;> omega
      · simp only [ha, if_false]
        exact h
    · simp only [Bool.not_eq_true] at hr
      rw [hr] at hres
      simp at hres

/-- Every sequence of transactional reputation updates preserves the
0..100 range of the reputation score of a miner record. -/
theorem runOutcomes_rep_le (addr : Nat) :
    ∀ (outcomes : List Bool) (st : RegistryState),
      (st.miners addr).reputationScore ≤ 100 →
      ((runOutcomes st addr outcomes).miners addr).reputationScore ≤ 100 := by
  intro outcomes
  induction outcomes with
  | nil =>
    intro st h
    exact h
  | cons o rest ih =>
    intro st h
    exact ih (runUpdate st addr o) (runUpdate_rep_le st addr addr o h)

/-- Claim C7 (confirmed): starting from registration (which initializes
the reputation score to 50) and applying any finite sequence of
pass/fail outcomes through updateMinerPerformance, the reputation score
stays in [0, 100]; since every prefix of a sequence is itself a
sequence, the bound holds after every step. -/
theorem reputation_range_invariant (st : RegistryState) (sender amount : Nat)
    (st1 : RegistryState)
    (hreg : registerMiner st sender amount = .ok st1) (outcomes : List Bool) :
    (st1.miners sender).reputationScore = 50
    ∧ 0 ≤ ((runOutcomes st1 sender outcomes).miners sender).reputationScore
    ∧ ((runOutcomes st1 sender outcomes).miners sender).reputationScore ≤ 100 := by
  have h50 : (st1.miners sender).reputationScore = 50 := by
    rw [registerMiner] at hreg
    split at hreg
    · exact absurd hreg (by simp)
    split at hreg
    · exact absurd hreg (by simp)
    split at hreg
    · exact absurd hreg (by simp)
    · simp only [Except.ok.injEq] at hreg
      rw [← hreg]
      simp
  exact ⟨h50, Nat.zero_le _, runOutcomes_rep_le sender outcomes st1 (by omega)⟩

/-- Claim C7 witness: registering miner 1 with stake 200 in the concrete
state and running the outcome sequence fail, fail, pass keeps the
reputation inside [0, 100]. -/
theorem reputation_range_invariant_witness :
    (regSt1.miners 1).reputationScore = 50
    ∧ 0 ≤ ((runOutcomes regSt1 1 [false, false, true]).miners 1).reputationScore
    ∧ ((runOutcomes regSt1 1 [false, false, true]).miners 1).reputationScore ≤ 100 :=
  reputation_range_invariant regSt0 1 200 regSt1 (by rfl) [false, false, true]
